import Mathlib

/-!
Verification of the AES-CTR encrypted random-access container implemented in
`tahoefuse/crypto.py` (`CryptFile`, `NullStream` and the 128-bit counter
helpers).  The Python code is shallowly embedded: bytes are natural numbers,
the physical file (16-byte nonce header followed by ciphertext) is a
`List Nat`, and the AES block primitive — an external, vetted building block
in the source — is an explicit parameter `E : BlockCipher` mapping a key and
a 128-bit counter value to one 16-byte keystream block.  The stateful
PyCrypto CTR cipher object is embedded as a `Cryptor` record (initial counter
value plus number of keystream bytes consumed so far), and
`Crypto.Util.Counter` semantics with `allow_wraparound=True` ticks the
counter modulo 2^128 per 16-byte block.
-/

namespace TahoeCrypto

/-- Bytes are modelled as natural numbers (values below 256 on real data). -/
abbrev Byte := Nat

/-- The AES block-encryption primitive used through `AES.new(key, MODE_CTR)`:
from the 32-byte key and one 128-bit counter value, one 16-byte keystream
block.  The development is parametric in this function. -/
abbrev BlockCipher := List Byte → Nat → List Byte

/-- `_wrapsum_uint128(a, b)`: `(a + b) % 0x100000000000000000000000000000000`. -/
def wrapsum_uint128 (a b : Nat) : Nat :=
  (a + b) % 0x100000000000000000000000000000000

/-- `struct.pack('<Q', num)`: eight little-endian bytes of a 64-bit value. -/
def pack_uint64_le (num : Nat) : List Byte :=
  (List.range 8).map fun i => (num >>> (8 * i)) % 256

/-- `_pack_uint128(num)`: low 64-bit half little-endian, then high half. -/
def pack_uint128 (num : Nat) : List Byte :=
  pack_uint64_le (num % 2 ^ 64) ++ pack_uint64_le ((num >>> 64) % 2 ^ 64)

/-- `struct.unpack('<Q', s)[0]`: the little-endian value of a byte string. -/
def unpack_uint64_le (s : List Byte) : Nat :=
  s.foldr (fun b acc => b + 256 * acc) 0

/-- `_unpack_uint128(s)`: `unpack('<Q', s[:8]) | (unpack('<Q', s[8:]) << 64)`. -/
def unpack_uint128 (s : List Byte) : Nat :=
  unpack_uint64_le (s.take 8) ||| (unpack_uint64_le ((s.drop 8).take 8) <<< 64)

/-- A live CTR cipher object, as built by `AES.new(key, AES.MODE_CTR, counter=ctr)`
with `ctr = Counter.new(128, initial_value=ctr0, allow_wraparound=True)`:
the key, the counter's initial value, and how many keystream bytes the
object has already produced (its internal stream position). -/
structure Cryptor where
  key : List Byte
  ctr0 : Nat
  pos : Nat

/-- The keystream byte the cryptor `c` produces at relative stream index `i`:
block number `(c.pos + i) / 16` of the stream uses counter value
`(c.ctr0 + (c.pos + i) / 16) mod 2^128` (the counter wraps), and the byte is
entry `(c.pos + i) % 16` of that encrypted counter block. -/
def ksByte (E : BlockCipher) (c : Cryptor) (i : Nat) : Byte :=
  (E c.key (wrapsum_uint128 c.ctr0 ((c.pos + i) / 16))).getD ((c.pos + i) % 16) 0

/-- `cryptor.encrypt(data)`: XOR `data` with the next `len(data)` keystream
bytes and advance the cipher's stream position. -/
def Cryptor.encrypt (E : BlockCipher) (c : Cryptor) (data : List Byte) :
    List Byte × Cryptor :=
  ((List.range data.length).map fun i => Nat.xor (data.getD i 0) (ksByte E c i),
   { c with pos := c.pos + data.length })

/-- `cryptor.decrypt(data)`: in CTR mode decryption is the same XOR-with-keystream
operation as encryption. -/
def Cryptor.decrypt (E : BlockCipher) (c : Cryptor) (data : List Byte) :
    List Byte × Cryptor :=
  Cryptor.encrypt E c data

/-- The keystream byte for absolute plaintext offset `p` of a container with
the given key and nonce: counter `(nonce + p / 16) mod 2^128`, byte `p % 16`
of the block.  This is the specification-level "counter derived from absolute
byte offset" view that the positioned cryptors are proved to agree with. -/
def absKS (E : BlockCipher) (key : List Byte) (nonce : Nat) (p : Nat) : Byte :=
  (E key (wrapsum_uint128 nonce (p / 16))).getD (p % 16) 0

/-- Typed errors of the container operations.  `UseAfterClose` stands for the
loud failure Python produces when an operation reaches the closed file object
or the discarded key (`ValueError` / `TypeError`). -/
inductive CryptError where
  | InvalidKey
  | InvalidWhence
  | InvalidOffset
  | UseAfterClose
deriving DecidableEq

/-- State of an open `CryptFile`: the key, the decoded 128-bit nonce, the full
physical file contents (16-byte header followed by ciphertext), the logical
plaintext cursor `self.offset`, and whether `close()` has been called. -/
structure CryptFile where
  key : List Byte
  nonce : Nat
  file : List Byte
  offset : Nat
  closed : Bool

/-- `fp.seek(p); fp.write(data)` on a regular file: writing `n > 0` bytes at
position `p` splices them in, zero-filling any gap between the old end of
file and `p`; writing the empty string changes nothing. -/
def fpWrite (file : List Byte) (p : Nat) (data : List Byte) : List Byte :=
  if data = [] then file
  else file.take p ++ List.replicate (p - file.length) 0 ++ data
        ++ file.drop (p + data.length)

/-- `fp.truncate(s)`: cut the file to `s` bytes, zero-extending if `s` exceeds
the current length. -/
def fpTruncate (file : List Byte) (s : Nat) : List Byte :=
  file.take s ++ List.replicate (s - file.length) 0

/-- `CryptFile.__init__` in create mode (`'w+b'`): check the key length,
generate a fresh 16-byte nonce (`nonceBytes`, the randomness is a parameter),
write it as the header of the (truncated-to-empty) file, decode it, and start
with cursor 0. -/
def CryptFile.create (key : List Byte) (nonceBytes : List Byte) :
    Except CryptError CryptFile :=
  if key.length ≠ 32 then .error .InvalidKey
  else .ok { key := key, nonce := unpack_uint128 nonceBytes, file := nonceBytes,
             offset := 0, closed := false }

/-- `CryptFile.__init__` in the existing-file modes (`'rb'` / `'r+b'`):
check the key length, read the 16-byte header of the on-disk file `disk`
and decode the nonce, and start with cursor 0. -/
def CryptFile.openExisting (key : List Byte) (disk : List Byte) :
    Except CryptError CryptFile :=
  if key.length ≠ 32 then .error .InvalidKey
  else .ok { key := key, nonce := unpack_uint128 (disk.take 16), file := disk,
             offset := 0, closed := false }

/-- `CryptFile._get_AES_at(offset)`: build a CTR cryptor whose counter starts
at `_wrapsum_uint128(nonce, offset // 16)` and burn `offset % 16` bytes of
keystream by encrypting (or decrypting — same state change) that many zero
bytes. -/
def CryptFile.get_AES_at (E : BlockCipher) (f : CryptFile) (offset : Nat) :
    Cryptor :=
  let start_block := offset / 16
  let start_off := offset % 16
  let cryptor : Cryptor := { key := f.key, ctr0 := wrapsum_uint128 f.nonce start_block,
                             pos := 0 }
  (cryptor.encrypt E (List.replicate start_off 0)).2

/-- `CryptFile._read(size, offset)`: with `size=None` the remaining length
`file_size - offset - HEADER_SIZE` is used (this touches the closed `fp`);
a non-positive size returns `b""` at once; otherwise the ciphertext read from
physical position `16 + offset` (clamped at end of file by `fp.read`) is
decrypted with the cryptor positioned at `offset`. -/
def CryptFile._read (E : BlockCipher) (f : CryptFile) (size : Option Int)
    (offset : Nat) : Except CryptError (List Byte) :=
  match size with
  | none =>
    if f.closed then .error .UseAfterClose
    else
      let sz : Int := (f.file.length : Int) - (offset : Int) - 16
      if sz ≤ 0 then .ok []
      else .ok ((f.get_AES_at E offset).decrypt E
                  ((f.file.drop (16 + offset)).take sz.toNat)).1
  | some sz =>
    if sz ≤ 0 then .ok []
    else if f.closed then .error .UseAfterClose
    else .ok ((f.get_AES_at E offset).decrypt E
                ((f.file.drop (16 + offset)).take sz.toNat)).1

/-- `CryptFile.read(size)`: read at the cursor and advance it by the number
of bytes actually returned. -/
def CryptFile.read (E : BlockCipher) (f : CryptFile) (size : Option Int) :
    Except CryptError (List Byte × CryptFile) :=
  match f._read E size f.offset with
  | .error e => .error e
  | .ok data => .ok (data, { f with offset := f.offset + data.length })

/-- `CryptFile._write(data, offset)` on a plain buffer: encrypt with the
cryptor positioned at `offset` and write the ciphertext at physical position
`16 + offset`. -/
def CryptFile._write (E : BlockCipher) (f : CryptFile) (data : List Byte)
    (offset : Nat) : CryptFile :=
  { f with file := fpWrite f.file (16 + offset) ((f.get_AES_at E offset).encrypt E data).1 }

/-- The streaming loop of `CryptFile._write`: `for block in data:
fp.write(encryptor.encrypt(block))` — one cryptor threaded across the chunks,
the physical write position advancing by each chunk's length. -/
def writeChunks (E : BlockCipher) : List (List Byte) → Cryptor → List Byte → Nat → List Byte
  | [], _, file, _ => file
  | block :: rest, c, file, p =>
      writeChunks E rest (c.encrypt E block).2
        (fpWrite file p (c.encrypt E block).1) (p + block.length)

/-- `CryptFile._write(data, offset)` on a streaming iterator of chunks. -/
def CryptFile._writeStream (E : BlockCipher) (f : CryptFile)
    (chunks : List (List Byte)) (offset : Nat) : CryptFile :=
  { f with file := writeChunks E chunks (f.get_AES_at E offset) f.file (16 + offset) }

/-- `iter(NullStream(size))` with the default block size 131072: blocks of
131072 zero bytes while more than a block remains, then one final short
block. -/
def nullStreamChunks : Nat → List (List Byte)
  | 0 => []
  | n + 1 =>
    if 131072 < n + 1 then
      List.replicate 131072 0 :: nullStreamChunks (n + 1 - 131072)
    else [List.replicate (n + 1) 0]
termination_by n => n
decreasing_by omega

/-- `CryptFile.write(data)`: if the physical file ends before
`offset + HEADER_SIZE`, first stream encrypted zero filling from the old
end of data up to the cursor, then encrypt and write `data` at the cursor
and advance the cursor by `len(data)`.  A closed handle fails at the first
`fp.seek`. -/
def CryptFile.write (E : BlockCipher) (f : CryptFile) (data : List Byte) :
    Except CryptError CryptFile :=
  if f.closed then .error .UseAfterClose
  else
    let file_size := f.file.length
    let f1 :=
      if file_size < f.offset + 16 then
        f._writeStream E (nullStreamChunks (f.offset + 16 - file_size)) (file_size - 16)
      else f
    let f2 := f1._write E data f.offset
    .ok { f2 with offset := f2.offset + data.length }

/-- `CryptFile.truncate(size)`: physically truncate to `size + HEADER_SIZE`;
when that grew the file, overwrite the grown tail with streamed encrypted
zero padding starting at the old end of data.  The cursor is not moved.
A closed handle fails at `_get_file_size`. -/
def CryptFile.truncate (E : BlockCipher) (f : CryptFile) (size : Nat) :
    Except CryptError CryptFile :=
  if f.closed then .error .UseAfterClose
  else
    let file_size := f.file.length
    let f1 : CryptFile := { f with file := fpTruncate f.file (size + 16) }
    if file_size < size + 16 then
      .ok (f1._writeStream E (nullStreamChunks (size + 16 - file_size)) (file_size - 16))
    else .ok f1

/-- `CryptFile.seek(offset, whence)`: compute the absolute target for
`whence ∈ {0, 1, 2}` (end-relative queries the physical size, so it touches
the closed `fp`), reject a negative target with `InvalidOffset`, otherwise
just update the cursor. -/
def CryptFile.seek (f : CryptFile) (offset : Int) (whence : Nat) :
    Except CryptError CryptFile :=
  match whence with
  | 0 =>
    if offset < 0 then .error .InvalidOffset
    else .ok { f with offset := offset.toNat }
  | 1 =>
    let target := (f.offset : Int) + offset
    if target < 0 then .error .InvalidOffset
    else .ok { f with offset := target.toNat }
  | 2 =>
    if f.closed then .error .UseAfterClose
    else
      let target := (f.file.length : Int) - 16 + offset
      if target < 0 then .error .InvalidOffset
      else .ok { f with offset := target.toNat }
  | _ => .error .InvalidWhence

/-- `CryptFile.tell()`: the cursor, unconditionally. -/
def CryptFile.tell (f : CryptFile) : Nat := f.offset

/-- `CryptFile.close()`: close the file object and discard the key
(`self.key = None`). -/
def CryptFile.close (f : CryptFile) : CryptFile :=
  { f with closed := true, key := [] }

/-- The logical plaintext content of a container: the ciphertext after the
16-byte header, decrypted from absolute offset 0. -/
def CryptFile.plaintext (E : BlockCipher) (f : CryptFile) : List Byte :=
  ((f.get_AES_at E 0).decrypt E (f.file.drop 16)).1

/-- Whether an operation succeeded. -/
def isOk {α : Type} (e : Except CryptError α) : Bool :=
  match e with
  | .ok _ => true
  | .error _ => false

/-- The container states reachable through the public interface: a freshly
created container (the generated nonce is 16 random bytes), an existing
container opened from a well-formed disk image (at least the 16-byte header,
as guaranteed by the open-time header check), and everything the operations
produce from those. -/
inductive Reachable : CryptFile → Prop where
  | create : ∀ key nb f, nb.length = 16 →
      CryptFile.create key nb = .ok f → Reachable f
  | openExisting : ∀ key disk f, 16 ≤ disk.length →
      CryptFile.openExisting key disk = .ok f → Reachable f
  | seek : ∀ f off w f', Reachable f → f.seek off w = .ok f' → Reachable f'
  | read : ∀ E f sz d f', Reachable f → f.read E sz = .ok (d, f') → Reachable f'
  | write : ∀ E f d f', Reachable f → f.write E d = .ok f' → Reachable f'
  | truncate : ∀ E f n f', Reachable f → f.truncate E n = .ok f' → Reachable f'
  | close : ∀ f, Reachable f → Reachable f.close

/-! ### Basic cipher lemmas -/

theorem encrypt_fst_length (E : BlockCipher) (c : Cryptor) (d : List Byte) :
    ((c.encrypt E d).1).length = d.length := by
  simp [Cryptor.encrypt]

theorem encrypt_snd (E : BlockCipher) (c : Cryptor) (d : List Byte) :
    (c.encrypt E d).2 = { c with pos := c.pos + d.length } := rfl

theorem encrypt_fst_getElem (E : BlockCipher) (c : Cryptor) (d : List Byte)
    (i : Nat) (h : i < ((c.encrypt E d).1).length) :
    (c.encrypt E d).1[i] = Nat.xor (d.getD i 0) (ksByte E c i) := by
  simp [Cryptor.encrypt]

theorem ksByte_eq_absKS (E : BlockCipher) (c : Cryptor) (i : Nat) :
    ksByte E c i = absKS E c.key c.ctr0 (c.pos + i) := rfl

theorem absKS_wrapsum (E : BlockCipher) (k : List Byte) (n b p : Nat) :
    absKS E k (wrapsum_uint128 n b) p = absKS E k n (16 * b + p) := by
  unfold absKS wrapsum_uint128
  have h1 : (16 * b + p) / 16 = b + p / 16 := by omega
  have h2 : (16 * b + p) % 16 = p % 16 := by omega
  rw [h1, h2, Nat.mod_add_mod, Nat.add_assoc]

theorem get_AES_at_key (E : BlockCipher) (f : CryptFile) (o : Nat) :
    (f.get_AES_at E o).key = f.key := rfl

theorem get_AES_at_ctr0 (E : BlockCipher) (f : CryptFile) (o : Nat) :
    (f.get_AES_at E o).ctr0 = wrapsum_uint128 f.nonce (o / 16) := rfl

theorem get_AES_at_pos (E : BlockCipher) (f : CryptFile) (o : Nat) :
    (f.get_AES_at E o).pos = o % 16 := by
  simp [CryptFile.get_AES_at, Cryptor.encrypt]

theorem ksByte_get_AES_at (E : BlockCipher) (f : CryptFile) (o i : Nat) :
    ksByte E (f.get_AES_at E o) i = absKS E f.key f.nonce (o + i) := by
  rw [ksByte_eq_absKS, get_AES_at_key, get_AES_at_ctr0, get_AES_at_pos, absKS_wrapsum]
  have h : 16 * (o / 16) + (o % 16 + i) = o + i := by omega
  rw [h]

theorem encrypt_fst_congr (E : BlockCipher) (c1 c2 : Cryptor) (d : List Byte)
    (h : ∀ i, i < d.length → ksByte E c1 i = ksByte E c2 i) :
    (c1.encrypt E d).1 = (c2.encrypt E d).1 := by
  simp only [Cryptor.encrypt]
  exact List.map_congr_left (fun i hi => by rw [h i (List.mem_range.mp hi)])

theorem encrypt_decrypt (E : BlockCipher) (c : Cryptor) (d : List Byte) :
    (c.decrypt E (c.encrypt E d).1).1 = d := by
  apply List.ext_getElem
  · simp [Cryptor.encrypt, Cryptor.decrypt]
  intro i h1 h2
  have hd : i < d.length := h2
  simp only [Cryptor.decrypt] at h1 ⊢
  rw [encrypt_fst_getElem E c _ i h1]
  rw [List.getD_eq_getElem _ 0 (by simpa [encrypt_fst_length] using hd)]
  rw [encrypt_fst_getElem E c d i (by simpa [encrypt_fst_length] using hd)]
  rw [List.getD_eq_getElem _ 0 hd]
  exact Nat.xor_cancel_right _ _

theorem ksByte_add (E : BlockCipher) (c : Cryptor) (n j : Nat) :
    ksByte E { c with pos := c.pos + n } j = ksByte E c (n + j) := by
  simp [ksByte, Nat.add_assoc]

theorem encrypt_fst_append (E : BlockCipher) (c : Cryptor) (a b : List Byte) :
    (c.encrypt E (a ++ b)).1
      = (c.encrypt E a).1 ++ ((c.encrypt E a).2.encrypt E b).1 := by
  apply List.ext_getElem
  · simp [encrypt_fst_length]
  intro i h1 h2
  rw [encrypt_fst_getElem E c _ i h1]
  by_cases hi : i < a.length
  · rw [List.getElem_append_left (by simpa [encrypt_fst_length] using hi)]
    rw [encrypt_fst_getElem E c a i (by simpa [encrypt_fst_length] using hi)]
    rw [List.getD_append _ _ _ _ hi]
  · have hle : ((c.encrypt E a).1).length ≤ i := by
      simpa [encrypt_fst_length] using Nat.le_of_not_lt hi
    rw [List.getElem_append_right hle]
    rw [encrypt_fst_getElem E _ b _ (by
      simp only [List.length_append, encrypt_fst_length] at h2 ⊢
      omega)]
    rw [List.getD_append_right a b 0 i (Nat.le_of_not_lt hi)]
    rw [encrypt_snd, ksByte_add]
    have hidx : i - ((c.encrypt E a).1).length = i - a.length := by
      rw [encrypt_fst_length]
    rw [hidx]
    have hi2 : a.length + (i - a.length) = i := by omega
    rw [hi2]

/-! ### Physical file lemmas -/

theorem fpWrite_nil (file : List Byte) (p : Nat) : fpWrite file p [] = file := rfl

theorem fpWrite_of_ne_nil (file : List Byte) (p : Nat) (d : List Byte) (h : d ≠ []) :
    fpWrite file p d
      = file.take p ++ List.replicate (p - file.length) 0 ++ d
          ++ file.drop (p + d.length) := by
  simp [fpWrite, h]

theorem fpWrite_length (file : List Byte) (p : Nat) (d : List Byte) :
    (fpWrite file p d).length
      = if d = [] then file.length else max (p + d.length) file.length := by
  by_cases h : d = [] <;> simp [fpWrite, h] <;> omega

theorem length_le_fpWrite_length (file : List Byte) (p : Nat) (d : List Byte) :
    file.length ≤ (fpWrite file p d).length := by
  rw [fpWrite_length]; split <;> omega

theorem fpWrite_at_end (file d : List Byte) :
    fpWrite file file.length d = file ++ d := by
  by_cases h : d = []
  · simp [fpWrite, h]
  · rw [fpWrite_of_ne_nil _ _ _ h, List.take_length, Nat.sub_self,
      List.drop_eq_nil_of_le (Nat.le_add_right _ _)]
    simp

theorem fpWrite_append (file : List Byte) (p : Nat) (a b : List Byte) :
    fpWrite (fpWrite file p a) (p + a.length) b = fpWrite file p (a ++ b) := by
  by_cases ha : a = []
  · subst ha; simp [fpWrite_nil]
  by_cases hb : b = []
  · subst hb; simp [fpWrite_nil]
  have hab : a ++ b ≠ [] := fun hc => ha (List.append_eq_nil.mp hc).1
  rw [fpWrite_of_ne_nil _ _ _ ha, fpWrite_of_ne_nil _ _ _ hab,
    fpWrite_of_ne_nil _ _ _ hb]
  have hX : (((file.take p ++ List.replicate (p - file.length) 0) ++ a)).length
      = p + a.length := by
    simp; omega
  rw [List.take_left' hX]
  have h0 : p + a.length
      - ((((file.take p ++ List.replicate (p - file.length) 0) ++ a))
          ++ file.drop (p + a.length)).length = 0 := by
    simp; omega
  rw [h0]
  have hidx : p + a.length + b.length
      = (((file.take p ++ List.replicate (p - file.length) 0) ++ a)).length
          + b.length := by
    rw [hX]
  rw [hidx, List.drop_append, List.drop_drop]
  have hidx2 : p + a.length + b.length = p + (a ++ b).length := by
    simp; omega
  rw [hidx2]
  simp [List.append_assoc]

theorem fpTruncate_length (file : List Byte) (s : Nat) :
    (fpTruncate file s).length = s := by
  simp [fpTruncate]; omega

/-! ### Streaming writes -/

theorem writeChunks_eq (E : BlockCipher) (chunks : List (List Byte)) :
    ∀ (c : Cryptor) (file : List Byte) (p : Nat),
      writeChunks E chunks c file p = fpWrite file p (c.encrypt E chunks.flatten).1 := by
  induction chunks with
  | nil =>
    intro c file p
    simp [writeChunks, Cryptor.encrypt, fpWrite_nil]
  | cons blk rest ih =>
    intro c file p
    rw [writeChunks, ih]
    have hlen : blk.length = ((c.encrypt E blk).1).length := (encrypt_fst_length E c blk).symm
    rw [hlen, fpWrite_append]
    rw [List.flatten_cons, encrypt_fst_append]

theorem nullStreamChunks_flatten (n : Nat) :
    (nullStreamChunks n).flatten = List.replicate n 0 := by
  induction n using Nat.strong_induction_on with
  | _ n ih =>
    match n with
    | 0 => simp [nullStreamChunks]
    | m + 1 =>
      rw [nullStreamChunks]
      by_cases h : 131072 < m + 1
      · rw [if_pos h]
        rw [List.flatten_cons, ih (m + 1 - 131072) (by omega)]
        rw [← List.replicate_add]
        have : 131072 + (m + 1 - 131072) = m + 1 := by omega
        rw [this]
      · rw [if_neg h]
        simp

theorem _writeStream_eq (E : BlockCipher) (f : CryptFile) (chunks : List (List Byte))
    (offset : Nat) :
    f._writeStream E chunks offset = f._write E chunks.flatten offset := by
  simp [CryptFile._writeStream, CryptFile._write, writeChunks_eq]

/-! ### Operation-level lemmas -/

theorem plaintext_length (E : BlockCipher) (f : CryptFile) :
    (f.plaintext E).length = f.file.length - 16 := by
  simp [CryptFile.plaintext, Cryptor.decrypt, encrypt_fst_length]

theorem create_eq (key nb : List Byte) (h : key.length = 32) :
    CryptFile.create key nb
      = .ok { key := key, nonce := unpack_uint128 nb, file := nb,
              offset := 0, closed := false } := by
  simp [CryptFile.create, h]

theorem openExisting_eq (key disk : List Byte) (h : key.length = 32) :
    CryptFile.openExisting key disk
      = .ok { key := key, nonce := unpack_uint128 (disk.take 16), file := disk,
              offset := 0, closed := false } := by
  simp [CryptFile.openExisting, h]

theorem get_AES_at_update_file (E : BlockCipher) (f : CryptFile) (x : List Byte)
    (o : Nat) :
    CryptFile.get_AES_at E { f with file := x } o = f.get_AES_at E o := rfl

theorem _write_file (E : BlockCipher) (f : CryptFile) (d : List Byte) (o : Nat) :
    (f._write E d o).file
      = fpWrite f.file (16 + o) ((f.get_AES_at E o).encrypt E d).1 := rfl

theorem _write_offset (E : BlockCipher) (f : CryptFile) (d : List Byte) (o : Nat) :
    (f._write E d o).offset = f.offset := rfl

theorem length_le_writeStream (E : BlockCipher) (f : CryptFile)
    (chunks : List (List Byte)) (o : Nat) :
    f.file.length ≤ (f._writeStream E chunks o).file.length := by
  rw [_writeStream_eq]
  exact length_le_fpWrite_length _ _ _

theorem seek_ok_shape (f : CryptFile) (off : Int) (w : Nat) (f' : CryptFile)
    (h : f.seek off w = .ok f') :
    f'.file = f.file ∧ f'.closed = f.closed ∧ f'.key = f.key ∧ f'.nonce = f.nonce := by
  unfold CryptFile.seek at h
  split at h
  · split at h
    · exact Except.noConfusion h
    · simp only [Except.ok.injEq] at h; subst h; exact ⟨rfl, rfl, rfl, rfl⟩
  · dsimp only at h
    split at h
    · exact Except.noConfusion h
    · simp only [Except.ok.injEq] at h; subst h; exact ⟨rfl, rfl, rfl, rfl⟩
  · split at h
    · exact Except.noConfusion h
    · dsimp only at h
      split at h
      · exact Except.noConfusion h
      · simp only [Except.ok.injEq] at h; subst h; exact ⟨rfl, rfl, rfl, rfl⟩
  · exact Except.noConfusion h

theorem read_ok_shape (E : BlockCipher) (f : CryptFile) (sz : Option Int)
    (d : List Byte) (f' : CryptFile) (h : f.read E sz = .ok (d, f')) :
    f' = { f with offset := f.offset + d.length } := by
  unfold CryptFile.read at h
  cases hr : f._read E sz f.offset with
  | error e => rw [hr] at h; exact Except.noConfusion h
  | ok data =>
    rw [hr] at h
    simp only [Except.ok.injEq, Prod.mk.injEq] at h
    obtain ⟨h1, h2⟩ := h
    subst h1; subst h2; rfl

theorem write_ok_shape (E : BlockCipher) (f : CryptFile) (data : List Byte)
    (f' : CryptFile) (h : f.write E data = .ok f') :
    f.closed = false ∧ f.file.length ≤ f'.file.length
      ∧ f'.closed = f.closed ∧ f'.offset = f.offset + data.length := by
  unfold CryptFile.write at h
  by_cases hc : f.closed
  · rw [if_pos hc] at h; exact Except.noConfusion h
  · rw [if_neg hc] at h
    simp only [Except.ok.injEq] at h
    subst h
    refine ⟨by simpa using hc, ?_, ?_, ?_⟩
    · refine le_trans ?_ (by
        simp only [_write_file]
        exact length_le_fpWrite_length _ _ _)
      split
      · exact length_le_writeStream E f _ _
      · exact le_refl _
    · split <;> rfl
    · split <;> rfl

theorem truncate_ok_shape (E : BlockCipher) (f : CryptFile) (n : Nat)
    (f' : CryptFile) (h : f.truncate E n = .ok f') :
    f.closed = false ∧ n + 16 ≤ f'.file.length
      ∧ f'.closed = f.closed ∧ f'.offset = f.offset := by
  unfold CryptFile.truncate at h
  by_cases hc : f.closed
  · rw [if_pos hc] at h; exact Except.noConfusion h
  · rw [if_neg hc] at h
    dsimp only at h
    refine ⟨by simpa using hc, ?_, ?_, ?_⟩
    · split at h <;> (simp only [Except.ok.injEq] at h; subst h)
      · refine le_trans ?_ (length_le_writeStream E _ _ _)
        simp [fpTruncate_length]
      · simp [fpTruncate_length]
    · split at h <;> (simp only [Except.ok.injEq] at h; subst h)
      · rfl
      · rfl
    · split at h <;> (simp only [Except.ok.injEq] at h; subst h)
      · rfl
      · rfl

theorem fpWrite_splice (a b d : List Byte) (h : d.length ≤ b.length) :
    fpWrite (a ++ b) a.length d = a ++ d ++ b.drop d.length := by
  by_cases hd : d = []
  · subst hd; simp [fpWrite_nil]
  · rw [fpWrite_of_ne_nil _ _ _ hd, List.take_left]
    have h0 : a.length - (a ++ b).length = 0 := by simp
    rw [h0, List.drop_append]
    simp

theorem fpTruncate_grow (file : List Byte) (s : Nat) (h : file.length ≤ s) :
    fpTruncate file s = file ++ List.replicate (s - file.length) 0 := by
  unfold fpTruncate
  rw [List.take_of_length_le h]

theorem _write_at_end (E : BlockCipher) (f : CryptFile) (d : List Byte) (o : Nat)
    (hend : f.file.length = 16 + o) :
    f._write E d o = { f with file := f.file ++ ((f.get_AES_at E o).encrypt E d).1 } := by
  unfold CryptFile._write
  rw [← hend, fpWrite_at_end]

theorem _read_exact (E : BlockCipher) (f : CryptFile) (Q : List Byte)
    (hopen : f.closed = false)
    (hlen : f.file.length = 16 + Q.length)
    (hC : ∀ i, i < Q.length →
      (f.file.drop 16).getD i 0 = Nat.xor (Q.getD i 0) (absKS E f.key f.nonce i)) :
    f._read E (some (Q.length : Int)) 0 = .ok Q := by
  unfold CryptFile._read
  dsimp only
  by_cases hQ : Q.length = 0
  · rw [if_pos (show ((Q.length : Nat) : Int) ≤ 0 by simp [hQ])]
    rw [List.length_eq_zero.mp hQ]
  · have hpos : (0 : Int) < (Q.length : Int) := by exact_mod_cast Nat.pos_of_ne_zero hQ
    rw [if_neg (not_le.mpr hpos), if_neg (by simp [hopen])]
    have htake : (f.file.drop (16 + 0)).take ((Q.length : Int)).toNat = f.file.drop 16 := by
      rw [Nat.add_zero]
      apply List.take_of_length_le
      simp [hlen]
    rw [htake]
    simp only [Except.ok.injEq]
    apply List.ext_getElem
    · simp [Cryptor.decrypt, encrypt_fst_length, hlen]
    intro i h1 h2
    simp only [Cryptor.decrypt] at h1 ⊢
    rw [encrypt_fst_getElem E _ _ i h1]
    rw [hC i h2, ksByte_get_AES_at, Nat.zero_add]
    rw [List.getD_eq_getElem _ 0 h2]
    exact Nat.xor_cancel_right _ _

theorem read_exact (E : BlockCipher) (f : CryptFile) (Q : List Byte)
    (hopen : f.closed = false) (hoff : f.offset = 0)
    (hlen : f.file.length = 16 + Q.length)
    (hC : ∀ i, i < Q.length →
      (f.file.drop 16).getD i 0 = Nat.xor (Q.getD i 0) (absKS E f.key f.nonce i)) :
    f.read E (some (Q.length : Int)) = .ok (Q, { f with offset := Q.length }) := by
  unfold CryptFile.read
  rw [hoff, _read_exact E f Q hopen hlen hC]
  simp

theorem write_hole (E : BlockCipher) (f : CryptFile) (data : List Byte)
    (hopen : f.closed = false) (h16 : 16 ≤ f.file.length)
    (hhole : f.file.length < f.offset + 16) :
    f.write E data = .ok { f with
      file := f.file
        ++ ((f.get_AES_at E (f.file.length - 16)).encrypt E
              (List.replicate (f.offset + 16 - f.file.length) 0)).1
        ++ ((f.get_AES_at E f.offset).encrypt E data).1,
      offset := f.offset + data.length } := by
  have hfill : f._writeStream E (nullStreamChunks (f.offset + 16 - f.file.length))
      (f.file.length - 16)
      = { f with file := f.file ++ ((f.get_AES_at E (f.file.length - 16)).encrypt E
            (List.replicate (f.offset + 16 - f.file.length) 0)).1 } := by
    rw [_writeStream_eq, nullStreamChunks_flatten]
    exact _write_at_end E f _ _ (by omega)
  unfold CryptFile.write
  rw [if_neg (by simp [hopen])]
  dsimp only
  rw [if_pos hhole, hfill]
  rw [_write_at_end E _ data f.offset (by
    simp only [encrypt_fst_length, List.length_append, List.length_replicate]
    omega)]
  rfl

theorem truncate_grow (E : BlockCipher) (f : CryptFile) (n : Nat)
    (hopen : f.closed = false) (h16 : 16 ≤ f.file.length)
    (hgrow : f.file.length < n + 16) :
    f.truncate E n = .ok { f with
      file := f.file ++ ((f.get_AES_at E (f.file.length - 16)).encrypt E
        (List.replicate (n + 16 - f.file.length) 0)).1 } := by
  unfold CryptFile.truncate
  rw [if_neg (by simp [hopen])]
  dsimp only
  rw [if_pos hgrow]
  rw [_writeStream_eq, nullStreamChunks_flatten]
  have hf1 : fpTruncate f.file (n + 16)
      = f.file ++ List.replicate (n + 16 - f.file.length) 0 :=
    fpTruncate_grow _ _ (by omega)
  rw [hf1]
  unfold CryptFile._write
  dsimp only
  simp only [get_AES_at_update_file]
  have h16' : 16 + (f.file.length - 16) = f.file.length := by omega
  rw [h16']
  rw [fpWrite_splice _ _ _ (by simp [encrypt_fst_length])]
  simp only [encrypt_fst_length, List.length_replicate]
  rw [List.drop_replicate, Nat.sub_self]
  simp

theorem encrypt_at_split (E : BlockCipher) (f : CryptFile) (a b : List Byte) :
    ((f.get_AES_at E 0).encrypt E (a ++ b)).1
      = ((f.get_AES_at E 0).encrypt E a).1
          ++ ((f.get_AES_at E a.length).encrypt E b).1 := by
  rw [encrypt_fst_append]
  congr 1
  apply encrypt_fst_congr
  intro i hi
  rw [encrypt_snd, ksByte_add, ksByte_get_AES_at, ksByte_get_AES_at, Nat.zero_add]

theorem seek_start_eq (f : CryptFile) (n : Nat) :
    f.seek (n : Int) 0 = .ok { f with offset := n } := by
  unfold CryptFile.seek
  rw [if_neg (by omega)]
  rfl

theorem seek_zero_eq (f : CryptFile) : f.seek 0 0 = .ok { f with offset := 0 } := by
  unfold CryptFile.seek
  rw [if_neg (by omega)]
  rfl

theorem write_nohole (E : BlockCipher) (f : CryptFile) (data : List Byte)
    (hopen : f.closed = false) (hfit : f.offset + 16 ≤ f.file.length) :
    f.write E data
      = .ok { f._write E data f.offset with offset := f.offset + data.length } := by
  unfold CryptFile.write
  rw [if_neg (by simp [hopen])]
  dsimp only
  rw [if_neg (by omega)]
  rfl

theorem truncate_shrink (E : BlockCipher) (f : CryptFile) (n : Nat)
    (hopen : f.closed = false) (hle : n + 16 ≤ f.file.length) :
    f.truncate E n = .ok { f with file := fpTruncate f.file (n + 16) } := by
  unfold CryptFile.truncate
  rw [if_neg (by simp [hopen])]
  dsimp only
  rw [if_neg (by omega)]

theorem read_nonpos (E : BlockCipher) (f : CryptFile) (s : Int) (hs : s ≤ 0) :
    f.read E (some s) = .ok ([], f) := by
  unfold CryptFile.read CryptFile._read
  dsimp only
  rw [if_pos hs]
  rfl

theorem read_back (E : BlockCipher) (g : CryptFile) (nb Q : List Byte)
    (hopen : g.closed = false) (hoff : g.offset = 0) (hnb : nb.length = 16)
    (enc : CryptFile) (hkey : enc.key = g.key) (hnonce : enc.nonce = g.nonce)
    (hfile : g.file = nb ++ ((enc.get_AES_at E 0).encrypt E Q).1) :
    g.read E (some (Q.length : Int)) = .ok (Q, { g with offset := Q.length }) := by
  apply read_exact E g Q hopen hoff
  · rw [hfile]; simp [encrypt_fst_length, hnb]
  · intro i hi
    have hb : i < ((enc.get_AES_at E 0).encrypt E Q).1.length := by
      simpa [encrypt_fst_length] using hi
    rw [hfile, ← hnb, List.drop_left]
    rw [List.getD_eq_getElem _ 0 hb]
    rw [encrypt_fst_getElem E _ Q i hb]
    rw [ksByte_get_AES_at, Nat.zero_add, hkey, hnonce]

theorem reopen_read (E : BlockCipher) (key nb P : List Byte) (f0 : CryptFile)
    (hkey : key.length = 32) (hnb : nb.length = 16)
    (hf0key : f0.key = key) (hf0nonce : f0.nonce = unpack_uint128 nb) :
    (CryptFile.openExisting key (nb ++ ((f0.get_AES_at E 0).encrypt E P).1)).bind
      (fun g0 => (g0.read E (some (P.length : Int))).map Prod.fst) = .ok P := by
  rw [openExisting_eq key _ hkey]
  simp only [Except.bind]
  rw [read_back E
      { key := key,
        nonce := unpack_uint128 ((nb ++ ((f0.get_AES_at E 0).encrypt E P).1).take 16),
        file := nb ++ ((f0.get_AES_at E 0).encrypt E P).1,
        offset := 0, closed := false }
      nb P rfl rfl hnb f0 (by dsimp only; exact hf0key)
      (by dsimp only; rw [List.take_left' hnb, hf0nonce]) rfl]
  simp [Except.map]

/-! ### The claims -/

/-- C1: for every 32-byte key and every plaintext `P`, creating a fresh
container, writing `P` at offset 0, closing, reopening the container for
reading with the same key and reading `len(P)` bytes from offset 0 returns
exactly `P`. -/
theorem C1_roundtrip (E : BlockCipher) (key nb P : List Byte)
    (hkey : key.length = 32) (hnb : nb.length = 16) :
    (CryptFile.create key nb).bind (fun f0 =>
      (f0.write E P).bind (fun f1 =>
        (CryptFile.openExisting key f1.close.file).bind (fun g0 =>
          (g0.read E (some (P.length : Int))).map Prod.fst)))
      = .ok P := by
  rw [create_eq key nb hkey]
  simp only [Except.bind]
  rw [write_nohole E _ P rfl (by simp [hnb])]
  dsimp only
  rw [_write_at_end E _ P 0 (by simp [hnb])]
  simp only [Except.bind, CryptFile.close]
  exact reopen_read E key nb P _ hkey hnb rfl rfl

/-- C1 witness: the round trip at a concrete key, nonce and plaintext. -/
theorem C1_roundtrip_witness :
    (CryptFile.create (List.replicate 32 7) (List.replicate 16 3)).bind (fun f0 =>
      (f0.write (fun _ c => List.replicate 16 (c % 256)) [10, 20, 30]).bind (fun f1 =>
        (CryptFile.openExisting (List.replicate 32 7) f1.close.file).bind (fun g0 =>
          (g0.read (fun _ c => List.replicate 16 (c % 256))
            (some (([10, 20, 30] : List Byte).length : Int))).map Prod.fst)))
      = .ok [10, 20, 30] :=
  C1_roundtrip (fun _ c => List.replicate 16 (c % 256)) (List.replicate 32 7)
    (List.replicate 16 3) [10, 20, 30] (by simp) (by simp)

/-- C2: for every nonce below `2^128` and every byte offset `o`, the cryptor
built for offset `o` starts its counter at exactly `(nonce + o / 16) mod 2^128`
(wrapping, in range, without overflow) and has discarded exactly `o mod 16`
bytes of keystream, so its subsequent keystream bytes are the absolute-offset
keystream at `o + i`. -/
theorem C2_counter_at_offset (E : BlockCipher) (f : CryptFile) (o : Nat)
    (hn : f.nonce < 2 ^ 128) :
    (f.get_AES_at E o).ctr0 = (f.nonce + o / 16) % 2 ^ 128
      ∧ (f.get_AES_at E o).ctr0 < 2 ^ 128
      ∧ (f.get_AES_at E o).pos = o % 16
      ∧ ∀ i, ksByte E (f.get_AES_at E o) i = absKS E f.key f.nonce (o + i) := by
  refine ⟨?_, ?_, get_AES_at_pos E f o, fun i => ksByte_get_AES_at E f o i⟩
  · rw [get_AES_at_ctr0]
    unfold wrapsum_uint128
    norm_num
  · rw [get_AES_at_ctr0]
    unfold wrapsum_uint128
    exact Nat.mod_lt _ (by norm_num)

/-- C2 witness: a nonce at `2^128 - 1`, where the counter sum wraps. -/
theorem C2_counter_at_offset_witness :
    let f : CryptFile := { key := [], nonce := 2 ^ 128 - 1, file := [],
                           offset := 0, closed := false }
    let E : BlockCipher := fun _ c => List.replicate 16 (c % 256)
    (f.get_AES_at E 32).ctr0 = (f.nonce + 32 / 16) % 2 ^ 128
      ∧ (f.get_AES_at E 32).ctr0 < 2 ^ 128
      ∧ (f.get_AES_at E 32).pos = 32 % 16
      ∧ ∀ i, ksByte E (f.get_AES_at E 32) i = absKS E f.key f.nonce (32 + i) :=
  C2_counter_at_offset (fun _ c => List.replicate 16 (c % 256))
    { key := [], nonce := 2 ^ 128 - 1, file := [], offset := 0, closed := false }
    32 (by norm_num)

/-- C10: an explicitly requested size that is zero or negative makes `read`
return the empty byte string with the whole state (cursor included)
unchanged, independently of the cipher. -/
theorem C10_read_nonpositive_size (E : BlockCipher) (f : CryptFile) (s : Int)
    (hs : s ≤ 0) :
    f.read E (some s) = .ok ([], f) :=
  read_nonpos E f s hs

/-- C10 witness: reading `-3` bytes from a concrete closed-over state. -/
theorem C10_read_nonpositive_size_witness :
    CryptFile.read (fun _ c => List.replicate 16 (c % 256))
      { key := List.replicate 32 7, nonce := 3, file := List.replicate 20 1,
        offset := 2, closed := false } (some (-3))
      = .ok ([], { key := List.replicate 32 7, nonce := 3,
                   file := List.replicate 20 1, offset := 2, closed := false }) :=
  C10_read_nonpositive_size (fun _ c => List.replicate 16 (c % 256))
    { key := List.replicate 32 7, nonce := 3, file := List.replicate 20 1,
      offset := 2, closed := false } (-3) (by norm_num)

theorem map_fst_read (E : BlockCipher) (g : CryptFile) (nb Q : List Byte)
    (hopen : g.closed = false) (hoff : g.offset = 0) (hnb : nb.length = 16)
    (enc : CryptFile) (hkey : enc.key = g.key) (hnonce : enc.nonce = g.nonce)
    (hfile : g.file = nb ++ ((enc.get_AES_at E 0).encrypt E Q).1) :
    (g.read E (some (Q.length : Int))).map Prod.fst = .ok Q := by
  rw [read_back E g nb Q hopen hoff hnb enc hkey hnonce hfile]
  simp [Except.map]

/-- C3: on a fresh container, seeking to `h` and writing `data` materializes
encrypted zero filling for the hole, so reading `[0, h + len(data))` back
gives `h` zero bytes followed by `data` (the claim's instance is `h = 100`,
`data = b"X" * 5`); and in general a write whose cursor lies beyond the end
of data first writes an encrypted zero-filled plaintext region from the old
end up to the cursor, then the data itself. -/
theorem C3_hole_fill_on_write :
    (∀ (E : BlockCipher) (key nb data : List Byte) (h : Nat),
      key.length = 32 → nb.length = 16 →
      (CryptFile.create key nb).bind (fun f0 =>
        (f0.seek (h : Int) 0).bind (fun f1 =>
          (f1.write E data).bind (fun f2 =>
            (f2.seek 0 0).bind (fun f3 =>
              (f3.read E (some ((h + data.length : Nat) : Int))).map Prod.fst))))
        = .ok (List.replicate h 0 ++ data))
    ∧ (∀ (E : BlockCipher) (f : CryptFile) (data : List Byte),
        f.closed = false → 16 ≤ f.file.length → f.file.length < f.offset + 16 →
        f.write E data = .ok { f with
          file := f.file
            ++ ((f.get_AES_at E (f.file.length - 16)).encrypt E
                  (List.replicate (f.offset + 16 - f.file.length) 0)).1
            ++ ((f.get_AES_at E f.offset).encrypt E data).1,
          offset := f.offset + data.length }) := by
  constructor
  · intro E key nb data h hkey hnb
    rw [create_eq key nb hkey]
    simp only [Except.bind]
    rw [seek_start_eq]
    simp only [Except.bind]
    by_cases h0 : h = 0
    · subst h0
      rw [write_nohole E _ data rfl (by simp [hnb])]
      dsimp only
      rw [_write_at_end E _ data 0 (by simp [hnb])]
      simp only [Except.bind]
      rw [seek_zero_eq]
      simp only [Except.bind]
      rw [show ((0 + data.length : Nat) : Int)
          = ((List.replicate 0 (0 : Byte) ++ data).length : Int) by simp]
      exact map_fst_read E _ nb _ rfl rfl hnb _ rfl rfl
        (by dsimp only; simp only [List.replicate_zero, List.nil_append]; rfl)
    · rw [write_hole E _ data rfl (by simp [hnb]) (by simp [hnb]; omega)]
      dsimp only
      simp only [hnb, Nat.sub_self, Nat.add_sub_cancel]
      rw [seek_zero_eq]
      dsimp only
      rw [show ((h + data.length : Nat) : Int)
          = ((List.replicate h (0 : Byte) ++ data).length : Int) by simp]
      refine map_fst_read E _ nb _ rfl rfl hnb _ rfl rfl ?_
      dsimp only
      rw [encrypt_at_split E _ (List.replicate h 0) data, List.length_replicate,
        List.append_assoc]
      rfl
  · intro E f data hopen h16 hhole
    exact write_hole E f data hopen h16 hhole

/-- C3 witness: the spec's concrete instance — seek to 100 on a fresh
container, write five `'X'` bytes, read `[0, 105)` back — plus a concrete
instance of the general hole-materialization shape. -/
theorem C3_hole_fill_on_write_witness :
    ((CryptFile.create (List.replicate 32 7) (List.replicate 16 3)).bind (fun f0 =>
      (f0.seek ((100 : Nat) : Int) 0).bind (fun f1 =>
        (f1.write (fun _ c => List.replicate 16 (c % 256)) (List.replicate 5 88)).bind
          (fun f2 =>
            (f2.seek 0 0).bind (fun f3 =>
              (f3.read (fun _ c => List.replicate 16 (c % 256))
                (some ((100 + (List.replicate 5 88).length : Nat) : Int))).map Prod.fst))))
      = .ok (List.replicate 100 0 ++ List.replicate 5 88))
    ∧ ({ key := List.replicate 32 7, nonce := 3, file := List.replicate 20 1,
         offset := 30, closed := false } : CryptFile).write
          (fun _ c => List.replicate 16 (c % 256)) [9, 9]
        = .ok { key := List.replicate 32 7, nonce := 3,
                file := List.replicate 20 1
                  ++ ((({ key := List.replicate 32 7, nonce := 3,
                          file := List.replicate 20 1, offset := 30,
                          closed := false } : CryptFile).get_AES_at
                        (fun _ c => List.replicate 16 (c % 256)) 4).encrypt
                      (fun _ c => List.replicate 16 (c % 256))
                      (List.replicate 26 0)).1
                  ++ ((({ key := List.replicate 32 7, nonce := 3,
                          file := List.replicate 20 1, offset := 30,
                          closed := false } : CryptFile).get_AES_at
                        (fun _ c => List.replicate 16 (c % 256)) 30).encrypt
                      (fun _ c => List.replicate 16 (c % 256)) [9, 9]).1,
                offset := 32, closed := false } :=
  ⟨C3_hole_fill_on_write.1 (fun _ c => List.replicate 16 (c % 256))
      (List.replicate 32 7) (List.replicate 16 3) (List.replicate 5 88) 100
      (by simp) (by simp),
   C3_hole_fill_on_write.2 (fun _ c => List.replicate 16 (c % 256))
      { key := List.replicate 32 7, nonce := 3, file := List.replicate 20 1,
        offset := 30, closed := false } [9, 9] rfl (by simp) (by simp)⟩

/-- C4: `truncate(N)` on a fresh empty container followed by a read of `N`
bytes from offset 0 returns `N` zero bytes; and in general truncating an
open container to a size beyond the current plaintext length appends
encrypted zero padding from the old end of data up to the new size. -/
theorem C4_truncate_extends_with_zeros :
    (∀ (E : BlockCipher) (key nb : List Byte) (N : Nat),
      key.length = 32 → nb.length = 16 →
      (CryptFile.create key nb).bind (fun f0 =>
        (f0.truncate E N).bind (fun f1 =>
          (f1.read E (some (N : Int))).map Prod.fst))
        = .ok (List.replicate N 0))
    ∧ (∀ (E : BlockCipher) (f : CryptFile) (N : Nat),
        f.closed = false → 16 ≤ f.file.length → f.file.length < N + 16 →
        f.truncate E N = .ok { f with
          file := f.file ++ ((f.get_AES_at E (f.file.length - 16)).encrypt E
            (List.replicate (N + 16 - f.file.length) 0)).1 }) := by
  constructor
  · intro E key nb N hkey hnb
    rw [create_eq key nb hkey]
    simp only [Except.bind]
    by_cases hN : N = 0
    · subst hN
      rw [truncate_shrink E _ 0 rfl (by simp [hnb])]
      simp only [Except.bind]
      rw [read_nonpos E _ ((0 : Nat) : Int) (by simp)]
      simp [Except.map]
    · rw [truncate_grow E _ N rfl (by simp [hnb]) (by simp [hnb]; omega)]
      dsimp only
      simp only [hnb, Nat.sub_self, Nat.add_sub_cancel]
      rw [show ((N : Nat) : Int) = ((List.replicate N (0 : Byte)).length : Int) by simp]
      exact map_fst_read E _ nb _ rfl rfl hnb _ rfl rfl (by dsimp only; rfl)
  · intro E f N hopen h16 hgrow
    exact truncate_grow E f N hopen h16 hgrow

/-- C4 witness: `truncate(50)` then `read(50)` on a fresh concrete container
returns 50 zero bytes, plus a concrete instance of the general
padding-extension shape. -/
theorem C4_truncate_extends_with_zeros_witness :
    ((CryptFile.create (List.replicate 32 7) (List.replicate 16 3)).bind (fun f0 =>
      (f0.truncate (fun _ c => List.replicate 16 (c % 256)) 50).bind (fun f1 =>
        (f1.read (fun _ c => List.replicate 16 (c % 256)) (some ((50 : Nat) : Int))).map
          Prod.fst))
      = .ok (List.replicate 50 0))
    ∧ ({ key := List.replicate 32 7, nonce := 3, file := List.replicate 20 1,
         offset := 0, closed := false } : CryptFile).truncate
          (fun _ c => List.replicate 16 (c % 256)) 10
        = .ok { key := List.replicate 32 7, nonce := 3,
                file := List.replicate 20 1
                  ++ ((({ key := List.replicate 32 7, nonce := 3,
                          file := List.replicate 20 1, offset := 0,
                          closed := false } : CryptFile).get_AES_at
                        (fun _ c => List.replicate 16 (c % 256)) 4).encrypt
                      (fun _ c => List.replicate 16 (c % 256))
                      (List.replicate 6 0)).1,
                offset := 0, closed := false } :=
  ⟨C4_truncate_extends_with_zeros.1 (fun _ c => List.replicate 16 (c % 256))
      (List.replicate 32 7) (List.replicate 16 3) 50 (by simp) (by simp),
   C4_truncate_extends_with_zeros.2 (fun _ c => List.replicate 16 (c % 256))
      { key := List.replicate 32 7, nonce := 3, file := List.replicate 20 1,
        offset := 0, closed := false } 10 rfl (by simp) (by simp)⟩

theorem _read_ok (E : BlockCipher) (f : CryptFile) (size : Option Int) (o : Nat)
    (hopen : f.closed = false) :
    ∃ data, f._read E size o = .ok data
      ∧ data.length ≤ f.file.length - 16 - o
      ∧ (∀ s, size = some s → data.length ≤ s.toNat) := by
  unfold CryptFile._read
  cases size with
  | none =>
    rw [if_neg (by simp [hopen])]
    dsimp only
    by_cases hsz : (f.file.length : Int) - (o : Int) - 16 ≤ 0
    · rw [if_pos hsz]
      exact ⟨[], rfl, by simp, by simp⟩
    · rw [if_neg hsz]
      refine ⟨_, rfl, ?_, by simp⟩
      simp only [Cryptor.decrypt, encrypt_fst_length, List.length_take, List.length_drop]
      omega
  | some s =>
    dsimp only
    by_cases hs : s ≤ 0
    · rw [if_pos hs]
      refine ⟨[], rfl, by simp, ?_⟩
      intro s' hs'
      simp
    · rw [if_neg hs, if_neg (by simp [hopen])]
      refine ⟨_, rfl, ?_, ?_⟩
      · simp only [Cryptor.decrypt, encrypt_fst_length, List.length_take, List.length_drop]
        omega
      · intro s' hs'
        obtain rfl : s = s' := by injection hs'
        simp only [Cryptor.decrypt, encrypt_fst_length, List.length_take, List.length_drop]
        omega

/-- C5: with an open handle, `read` never fails: it returns a byte string
clamped to the available plaintext (`file length - 16 - cursor`), never
longer than an explicitly requested size, empty when the cursor is at or
past the end of the plaintext, and it advances the cursor by exactly the
number of bytes returned while leaving the file contents untouched. -/
theorem C5_read_clamps (E : BlockCipher) (f : CryptFile) (size : Option Int)
    (hopen : f.closed = false) :
    ∃ data f', f.read E size = .ok (data, f')
      ∧ data.length ≤ f.file.length - 16 - f.offset
      ∧ (∀ s, size = some s → data.length ≤ s.toNat)
      ∧ (f.file.length - 16 ≤ f.offset → data = [])
      ∧ f'.offset = f.offset + data.length
      ∧ f'.file = f.file := by
  obtain ⟨data, hr, hle, hreq⟩ := _read_ok E f size f.offset hopen
  refine ⟨data, { f with offset := f.offset + data.length }, ?_, hle, hreq, ?_, rfl, rfl⟩
  · unfold CryptFile.read
    rw [hr]
  · intro hge
    have h0 : data.length = 0 := by omega
    exact List.length_eq_zero.mp h0

/-- C5 witness: reading 100 bytes from a concrete 4-byte-plaintext container. -/
theorem C5_read_clamps_witness :
    ∃ data f',
      CryptFile.read (fun _ c => List.replicate 16 (c % 256))
        { key := List.replicate 32 7, nonce := 3, file := List.replicate 20 1,
          offset := 2, closed := false } (some 100)
        = .ok (data, f')
      ∧ data.length ≤ (List.replicate 20 (1 : Byte)).length - 16 - 2
      ∧ (∀ s, (some (100 : Int)) = some s → data.length ≤ s.toNat)
      ∧ ((List.replicate 20 (1 : Byte)).length - 16 ≤ 2 → data = [])
      ∧ f'.offset = 2 + data.length
      ∧ f'.file = List.replicate 20 1 :=
  C5_read_clamps (fun _ c => List.replicate 16 (c % 256))
    { key := List.replicate 32 7, nonce := 3, file := List.replicate 20 1,
      offset := 2, closed := false } (some 100) rfl

/-- The absolute target position `CryptFile.seek` computes for
`whence ∈ {0, 1, 2}`: the offset itself, cursor-relative, or relative to the
end of the plaintext (`file length - 16`). -/
def seekTarget (f : CryptFile) (offset : Int) (whence : Nat) : Int :=
  if whence = 0 then offset
  else if whence = 1 then (f.offset : Int) + offset
  else (f.file.length : Int) - 16 + offset

/-- C6: with an open handle and `whence ∈ {0, 1, 2}`, `seek` fails with
`InvalidOffset` exactly when the absolute target is negative; any
non-negative target — including one past the end of data — is accepted and
only the cursor is updated (on failure no new state is produced, so the
cursor is untouched). -/
theorem C6_seek_negative_target (f : CryptFile) (off : Int) (w : Nat)
    (hopen : f.closed = false) (hw : w ≤ 2) :
    (seekTarget f off w < 0 → f.seek off w = .error .InvalidOffset)
      ∧ (0 ≤ seekTarget f off w →
          f.seek off w = .ok { f with offset := (seekTarget f off w).toNat }) := by
  interval_cases w
  · constructor
    · intro hneg
      unfold CryptFile.seek
      rw [if_pos (by simpa [seekTarget] using hneg)]
    · intro hpos
      unfold CryptFile.seek
      rw [if_neg (by simp [seekTarget] at hpos ⊢; omega)]
      simp [seekTarget]
  · constructor
    · intro hneg
      unfold CryptFile.seek
      dsimp only
      rw [if_pos (by simpa [seekTarget] using hneg)]
    · intro hpos
      unfold CryptFile.seek
      dsimp only
      rw [if_neg (by simp [seekTarget] at hpos ⊢; omega)]
      simp [seekTarget]
  · constructor
    · intro hneg
      unfold CryptFile.seek
      dsimp only
      rw [if_neg (by simp [hopen])]
      rw [if_pos (by simpa [seekTarget] using hneg)]
    · intro hpos
      unfold CryptFile.seek
      dsimp only
      rw [if_neg (by simp [hopen])]
      rw [if_neg (by simp [seekTarget] at hpos ⊢; omega)]
      simp [seekTarget]

/-- C6 witness: on a concrete open handle, an end-relative seek to `-10`
(target `20 - 16 - 10 < 0`) fails with `InvalidOffset`, and a start seek to
`100` (past end) is accepted. -/
theorem C6_seek_negative_target_witness :
    let f : CryptFile := { key := List.replicate 32 7, nonce := 3,
                           file := List.replicate 20 1, offset := 2, closed := false }
    (seekTarget f (-10) 2 < 0 → f.seek (-10) 2 = .error .InvalidOffset)
      ∧ (0 ≤ seekTarget f (-10) 2 →
          f.seek (-10) 2 = .ok { f with offset := (seekTarget f (-10) 2).toNat }) :=
  C6_seek_negative_target
    { key := List.replicate 32 7, nonce := 3, file := List.replicate 20 1,
      offset := 2, closed := false } (-10) 2 rfl (by norm_num)

/-- C7: writing a finite sequence of chunks as a stream produces byte-for-byte
the same state (in particular the same ciphertext on disk) as writing their
concatenation as one buffer at the same offset — the cryptor is threaded
across chunk boundaries, not re-derived — and the public `write` advances the
cursor by the total length of the data written. -/
theorem C7_stream_buffer_equiv (E : BlockCipher) (f : CryptFile)
    (chunks : List (List Byte)) (off : Nat) (data : List Byte)
    (hopen : f.closed = false) :
    f._writeStream E chunks off = f._write E chunks.flatten off
      ∧ (f.write E data).map CryptFile.tell = .ok (f.offset + data.length) := by
  refine ⟨_writeStream_eq E f chunks off, ?_⟩
  unfold CryptFile.write
  rw [if_neg (by simp [hopen])]
  dsimp only
  split
  · simp [Except.map, CryptFile.tell, CryptFile._write, CryptFile._writeStream]
  · simp [Except.map, CryptFile.tell, CryptFile._write]

/-- C7 witness: streaming `[[1], [2, 3, 4]]` equals writing `[1, 2, 3, 4]`
at offset 3 of a concrete container, and the cursor lands at `2 + 2` after a
concrete two-byte write. -/
theorem C7_stream_buffer_equiv_witness :
    CryptFile._writeStream (fun _ c => List.replicate 16 (c % 256))
        { key := List.replicate 32 7, nonce := 3, file := List.replicate 20 1,
          offset := 2, closed := false } [[1], [2, 3, 4]] 3
      = CryptFile._write (fun _ c => List.replicate 16 (c % 256))
          { key := List.replicate 32 7, nonce := 3, file := List.replicate 20 1,
            offset := 2, closed := false } ([[1], [2, 3, 4]] : List (List Byte)).flatten 3
    ∧ (CryptFile.write (fun _ c => List.replicate 16 (c % 256))
        { key := List.replicate 32 7, nonce := 3, file := List.replicate 20 1,
          offset := 2, closed := false } [5, 6]).map CryptFile.tell
      = .ok (2 + ([5, 6] : List Byte).length) :=
  C7_stream_buffer_equiv (fun _ c => List.replicate 16 (c % 256))
    { key := List.replicate 32 7, nonce := 3, file := List.replicate 20 1,
      offset := 2, closed := false } [[1], [2, 3, 4]] 3 [5, 6] rfl

/-- C8 counterexample: after `close()`, a start-relative `seek` succeeds
silently (it touches neither the file object nor the key), contradicting the
claim that every subsequent use of the handle fails loudly. -/
theorem C8_use_after_close_counterexample :
    (CryptFile.close
        { key := List.replicate 32 7, nonce := 3, file := List.replicate 20 1,
          offset := 2, closed := false }).seek 5 0
      = .ok { key := [], nonce := 3, file := List.replicate 20 1, offset := 5,
              closed := true } := by
  rfl

/-- C8 (amended): after `close()`, the operations that reach the closed file
object or the discarded key — `write`, `truncate`, `read` with an unspecified
or positive size, and end-relative `seek` — fail loudly; but start- and
cursor-relative `seek` (with a non-negative target), `tell`, and `read` with
a non-positive requested size succeed silently with no use-after-close
failure. -/
theorem C8_use_after_close_amended (E : BlockCipher) (f : CryptFile)
    (hclosed : f.closed = true) (data : List Byte) (n : Nat) (s off : Int) :
    f.write E data = .error .UseAfterClose
      ∧ f.truncate E n = .error .UseAfterClose
      ∧ f.read E none = .error .UseAfterClose
      ∧ (0 < s → f.read E (some s) = .error .UseAfterClose)
      ∧ f.seek off 2 = .error .UseAfterClose
      ∧ (0 ≤ off → isOk (f.seek off 0) = true)
      ∧ (0 ≤ (f.offset : Int) + off → isOk (f.seek off 1) = true)
      ∧ f.tell = f.offset
      ∧ (s ≤ 0 → f.read E (some s) = .ok ([], f)) := by
  refine ⟨?_, ?_, ?_, ?_, ?_, ?_, ?_, rfl, fun hs => read_nonpos E f s hs⟩
  · unfold CryptFile.write
    rw [if_pos hclosed]
  · unfold CryptFile.truncate
    rw [if_pos hclosed]
  · unfold CryptFile.read CryptFile._read
    dsimp only
    rw [if_pos hclosed]
  · intro hs
    unfold CryptFile.read CryptFile._read
    dsimp only
    rw [if_neg (by omega), if_pos hclosed]
  · unfold CryptFile.seek
    dsimp only
    rw [if_pos hclosed]
  · intro hoff
    unfold CryptFile.seek
    rw [if_neg (by omega)]
    rfl
  · intro hoff
    unfold CryptFile.seek
    dsimp only
    rw [if_neg (by omega)]
    rfl

/-- C8 witness for the amended claim: the failing and the silently succeeding
operations on a concrete closed handle. -/
theorem C8_use_after_close_amended_witness :
    let f : CryptFile := { key := [], nonce := 3, file := List.replicate 20 1,
                           offset := 2, closed := true }
    let E : BlockCipher := fun _ c => List.replicate 16 (c % 256)
    f.write E [1] = .error .UseAfterClose
      ∧ f.truncate E 9 = .error .UseAfterClose
      ∧ f.read E none = .error .UseAfterClose
      ∧ (0 < (5 : Int) → f.read E (some 5) = .error .UseAfterClose)
      ∧ f.seek 7 2 = .error .UseAfterClose
      ∧ (0 ≤ (7 : Int) → isOk (f.seek 7 0) = true)
      ∧ (0 ≤ (f.offset : Int) + 7 → isOk (f.seek 7 1) = true)
      ∧ f.tell = f.offset
      ∧ ((5 : Int) ≤ 0 → f.read E (some 5) = .ok ([], f)) :=
  C8_use_after_close_amended (fun _ c => List.replicate 16 (c % 256))
    { key := [], nonce := 3, file := List.replicate 20 1, offset := 2,
      closed := true } rfl [1] 9 5 7

/-- C9: every state reachable through the public interface keeps the physical
file at least 16 bytes long (the nonce header survives every operation), and
the logical plaintext is exactly the physical length minus the 16-byte
header, whatever the cipher. -/
theorem C9_header_invariant (f : CryptFile) (hr : Reachable f) :
    16 ≤ f.file.length ∧ ∀ E, (f.plaintext E).length = f.file.length - 16 := by
  refine ⟨?_, fun E => plaintext_length E f⟩
  induction hr with
  | create key nb f hnb hcr =>
    unfold CryptFile.create at hcr
    split at hcr
    · exact Except.noConfusion hcr
    · simp only [Except.ok.injEq] at hcr
      subst hcr
      simp [hnb]
  | openExisting key disk f hdisk hop =>
    unfold CryptFile.openExisting at hop
    split at hop
    · exact Except.noConfusion hop
    · simp only [Except.ok.injEq] at hop
      subst hop
      exact hdisk
  | seek f off w f' hrf hs ih =>
    rw [(seek_ok_shape f off w f' hs).1]
    exact ih
  | read E f sz d f' hrf hrd ih =>
    rw [read_ok_shape E f sz d f' hrd]
    exact ih
  | write E f d f' hrf hw ih =>
    exact le_trans ih (write_ok_shape E f d f' hw).2.1
  | truncate E f n f' hrf ht ih =>
    have := (truncate_ok_shape E f n f' ht).2.1
    omega
  | close f hrf ih =>
    exact ih

/-- C9 witness: the invariant holds of a concrete freshly created container. -/
theorem C9_header_invariant_witness :
    let f : CryptFile := { key := List.replicate 32 7,
                           nonce := unpack_uint128 (List.replicate 16 3),
                           file := List.replicate 16 3, offset := 0, closed := false }
    16 ≤ f.file.length ∧ ∀ E, (f.plaintext E).length = f.file.length - 16 :=
  C9_header_invariant _
    (Reachable.create (List.replicate 32 7) (List.replicate 16 3) _ (by simp)
      (create_eq (List.replicate 32 7) (List.replicate 16 3) (by simp)))

end TahoeCrypto
